import Mathlib

/-!
Verification development for the blog-generator static-site build pipeline
(file src/main.rs of the repository).  The pipeline is shallowly embedded:
the date arithmetic of the time crate (calendar year, ISO week) is
reimplemented, the HTML tag builder is modelled as a small node tree with a
textual serializer, and the orchestration functions (articles, index,
article_list, article_page, layout, main) are translated function by
function.  Fallible operations (error propagation with the question-mark
operator, unwrap panics) are modelled with Except and Option.
-/

namespace Blogen

/-! ## Calendar model (the Date type of the time crate)

A Date is a calendar date; the pipeline only builds dates that passed
Date::parse with the format description of DATE_FORMAT, so every date it
holds satisfies isValid. -/

structure Date where
  year : Int
  month : Nat
  day : Nat
deriving DecidableEq, Repr

def isLeap (y : Int) : Bool :=
  y % 4 == 0 && (y % 100 != 0 || y % 400 == 0)

def daysInMonth (y : Int) (m : Nat) : Nat :=
  if m = 2 then (if isLeap y then 29 else 28)
  else if m = 4 ∨ m = 6 ∨ m = 9 ∨ m = 11 then 30
  else 31

def Date.isValid (d : Date) : Bool :=
  decide (1 ≤ d.month) && decide (d.month ≤ 12) &&
  decide (1 ≤ d.day) && decide (d.day ≤ daysInMonth d.year d.month)

/-- Days in the months strictly before month m (the cumulative-days table of
the time crate). -/
def daysBeforeMonth (y : Int) (m : Nat) : Nat :=
  (match m with
   | 1 => 0 | 2 => 31 | 3 => 59 | 4 => 90 | 5 => 120 | 6 => 151
   | 7 => 181 | 8 => 212 | 9 => 243 | 10 => 273 | 11 => 304 | _ => 334)
  + (if 3 ≤ m ∧ isLeap y then 1 else 0)

/-- Day-of-year, 1-based (Date::ordinal in the time crate). -/
def Date.ordinal (d : Date) : Nat :=
  daysBeforeMonth d.year d.month + d.day

/-- Days since 1970-01-01 of a civil date (standard days-from-civil
computation, written with floor divisions). -/
def daysFromCivil (y : Int) (m : Nat) (d : Nat) : Int :=
  let yy : Int := if m ≤ 2 then y - 1 else y
  let era : Int := Int.fdiv yy 400
  let yoe : Int := yy - era * 400
  let mp : Nat := (m + 9) % 12
  let doy : Nat := (153 * mp + 2) / 5 + d - 1
  let doe : Int := yoe * 365 + Int.fdiv yoe 4 - Int.fdiv yoe 100 + (doy : Int)
  era * 146097 + doe - 719468

/-- ISO weekday number, Monday = 1 .. Sunday = 7 (number_from_monday in the
time crate); 1970-01-01 was a Thursday. -/
def Date.weekdayFromMonday (d : Date) : Nat :=
  ((daysFromCivil d.year d.month d.day + 3) % 7).toNat + 1

/-- Number of ISO weeks in a year: 53 iff January 1 falls on a Thursday, or
on a Wednesday of a leap year (weeks_in_year in the time crate). -/
def weeksInYear (y : Int) : Nat :=
  let jan1 := Date.weekdayFromMonday ⟨y, 1, 1⟩
  if jan1 = 4 ∨ (isLeap y ∧ jan1 = 3) then 53 else 52

/-- Date::iso_year_week of the time crate: the ISO-8601 year and week a date
belongs to. -/
def Date.isoYearWeek (d : Date) : Int × Nat :=
  let w : Nat := (d.ordinal + 10 - d.weekdayFromMonday) / 7
  if w = 0 then (d.year - 1, weeksInYear (d.year - 1))
  else if w = 53 ∧ weeksInYear d.year = 52 then (d.year + 1, 1)
  else (d.year, w)

/-- Date::iso_week of the time crate: just the ISO week number.  Note that
main.rs pairs it with Date::year, the plain calendar year. -/
def Date.isoWeek (d : Date) : Nat :=
  d.isoYearWeek.2

/-- Strict order on dates (the derived Ord of the time crate restricted to
the valid dates an Article holds). -/
def dateLt (a b : Date) : Prop :=
  a.year < b.year ∨ (a.year = b.year ∧
    (a.month < b.month ∨ (a.month = b.month ∧ a.day < b.day)))

instance : DecidableRel dateLt := fun a b =>
  inferInstanceAs (Decidable (a.year < b.year ∨ (a.year = b.year ∧
    (a.month < b.month ∨ (a.month = b.month ∧ a.day < b.day)))))

/-! ## Decimal digits and zero-padded formatting

rustPad4C and rustPad2C model the Rust formatting directives 04 and 02
(total width, sign included); timeYearChars models the year formatting of
the time crate under the default year component (sign written separately,
digits padded to 4). -/

def digitChar : Nat → Char
  | 0 => '0' | 1 => '1' | 2 => '2' | 3 => '3' | 4 => '4'
  | 5 => '5' | 6 => '6' | 7 => '7' | 8 => '8' | 9 => '9'
  | _ => '*'

def digitVal (c : Char) : Option Nat :=
  if c = '0' then some 0 else if c = '1' then some 1
  else if c = '2' then some 2 else if c = '3' then some 3
  else if c = '4' then some 4 else if c = '5' then some 5
  else if c = '6' then some 6 else if c = '7' then some 7
  else if c = '8' then some 8 else if c = '9' then some 9
  else none

/-- Decimal digits of a natural number, most significant first; the fuel
argument (any value above the number) only makes the recursion structural. -/
def natCharsAux : Nat → Nat → List Char
  | 0, _ => []
  | fuel + 1, n =>
    if n < 10 then [digitChar n]
    else natCharsAux fuel (n / 10) ++ [digitChar (n % 10)]

def natChars (n : Nat) : List Char :=
  natCharsAux (n + 1) n

def padZeros (w : Nat) (l : List Char) : List Char :=
  List.replicate (w - l.length) '0' ++ l

/-- Rust zero-padded width-2 formatting of a Nat. -/
def rustPad2C (n : Nat) : List Char :=
  padZeros 2 (natChars n)

/-- Rust zero-padded width-4 formatting of an i32: the pad width counts the
sign. -/
def rustPad4C (y : Int) : List Char :=
  if y < 0 then '-' :: padZeros 3 (natChars y.natAbs)
  else padZeros 4 (natChars y.natAbs)

def rustPad2S (n : Nat) : String := String.mk (rustPad2C n)

def rustPad4S (y : Int) : String := String.mk (rustPad4C y)

/-- Year formatting of the time crate: a sign for negative years, then the
absolute value zero-padded to four digits. -/
def timeYearChars (y : Int) : List Char :=
  (if y < 0 then ['-'] else []) ++ padZeros 4 (natChars y.natAbs)

/-- Date::format with the format description of DATE_FORMAT in main.rs
(year, month, day separated by hyphens, each zero-padded). -/
def Date.formatChars (d : Date) : List Char :=
  timeYearChars d.year ++ '-' :: rustPad2C d.month ++ '-' :: rustPad2C d.day

def Date.formatS (d : Date) : String := String.mk d.formatChars

/-! ## Date::parse with the DATE_FORMAT format description

The time crate parses an optional sign, then exactly four year digits, a
literal hyphen, exactly two month digits, a literal hyphen, exactly two day
digits, requires the whole input to be consumed, and finally validates the
calendar date (Date::from_calendar_date). -/

def parseYMD : List Char → Option (Nat × Nat × Nat)
  | [y1, y2, y3, y4, s1, m1, m2, s2, d1, d2] =>
    if s1 = '-' ∧ s2 = '-' then
      match digitVal y1, digitVal y2, digitVal y3, digitVal y4,
            digitVal m1, digitVal m2, digitVal d1, digitVal d2 with
      | some a, some b, some c, some d, some e, some f, some g, some h =>
        some (((a * 10 + b) * 10 + c) * 10 + d, e * 10 + f, g * 10 + h)
      | _, _, _, _, _, _, _, _ => none
    else none
  | _ => none

def parseDateChars (l : List Char) : Option Date :=
  let sr : Int × List Char :=
    match l with
    | c :: t => if c = '+' then (1, t) else if c = '-' then (-1, t) else (1, l)
    | [] => (1, l)
  match parseYMD sr.2 with
  | some (y, m, d) =>
    let dt : Date := ⟨sr.1 * (y : Int), m, d⟩
    if dt.isValid then some dt else none
  | none => none

def parseDate (s : String) : Option Date := parseDateChars s.data

/-! ## HTML node trees and serialization

Modelled from the spec: the external Tag Builder (the dolmen crate) is not
part of this repository; per the spec it constructs an HTML element tree
from structured fragments and serializes it to HTML5 text.  Node is such an
element tree (element for the tag macro, text for string content, fragment
for a Fragment used as a node) and renderN is a plain HTML5 serializer.
Only the leading characters of the serialization matter to the theorems
below. -/

inductive Node where
  | element (tagName : String) (attrs : List (String × String)) (children : List Node)
  | text (s : String)
  | fragment (children : List Node)
deriving Repr

/-- A Fragment of the dolmen crate: an ordered sequence of nodes. -/
abbrev Fragment := List Node

mutual

def renderAttrs : List (String × String) → List Char
  | [] => []
  | (k, v) :: rest => ' ' :: k.data ++ '=' :: '\"' :: v.data ++ '\"' :: renderAttrs rest

def renderN : Node → List Char
  | .element t attrs cs =>
    '<' :: t.data ++ renderAttrs attrs ++ '>' :: renderL cs ++ '<' :: '/' :: t.data ++ ['>']
  | .text s => s.data
  | .fragment cs => renderL cs

def renderL : List Node → List Char
  | [] => []
  | n :: ns => renderN n ++ renderL ns

end

/-! ## Data model (the structs of main.rs and the Document Processor output) -/

structure Social where
  name : String
  icon_name : String
  url : String

structure BlogData where
  title : String
  tagline : String
  footer : String
  socials : List Social
  stylesheets : List String

/-- Modelled from the spec: the external Document Processor (the pastex
crate) produces a structured document: title, optional date, draft flag,
body content tree, optional summary content tree. -/
structure Metadata where
  title : Option String
  date : Option String
  draft : Bool

structure Document where
  metadata : Metadata
  content : Fragment
  summary : Option Fragment

/-- html::output on a document returns the rendered body and the optional
rendered summary; modelled as projections of the processed document. -/
def htmlOutput (d : Document) : Fragment × Option Fragment :=
  (d.content, d.summary)

/-- Modelled from the spec: process_fragment plus output_fragment turn a
markup string into a content fragment; the pipeline treats the result
opaquely, so it is embedded as a text node. -/
def processFragmentS (s : String) : Fragment :=
  [Node.text s]

/-- An Article of main.rs: the processed document, its source path and the
parsed date.  The path is kept as the base name of the file (for example
hello.px): main.rs only ever applies file_stem to it. -/
structure Article where
  document : Document
  path : String
  date : Date

/-- file_stem of Rust on a base name: the portion before the last dot, or
the whole name if there is no dot or nothing before it. -/
def fileStem (name : String) : String :=
  let r := name.data.reverse
  let afterDot := r.dropWhile (fun c => c ≠ '.')
  match afterDot with
  | [] => name
  | _ :: pre => if pre.isEmpty then name else String.mk pre.reverse

/-! ## Page fragments (separator, article_preview, index, article_page,
layout, article_list)

An unwrap on a missing title is modelled by returning none (a panic). -/

def separator : Node :=
  .element "p" [("class", "bl-separator"), ("role", "presentation")] [.text "◇"]

/-- The link target of an article preview, built in article_preview from the
calendar year, the ISO week number and the file stem. -/
def previewHref (a : Article) : String :=
  "/" ++ rustPad4S a.date.year ++ "/" ++ rustPad2S a.date.isoWeek ++ "/"
    ++ fileStem a.path ++ "/"

def article_preview (a : Article) : Option Node :=
  match a.document.metadata.title with
  | none => none
  | some title =>
    let summary := (htmlOutput a.document).2
    some (.element "article" [("class", "bl-article-preview")]
      [ .element "a" [("href", previewHref a)]
          [ .element "p" [] [.text a.date.formatS],
            .element "h3" [] [.text title] ],
        (match summary with
         | some block => .element "div" [] block
         | none => .fragment []) ])

/-- Materializing an iterator of fallible steps: the first panic aborts. -/
def traverseOption (f : α → Option β) : List α → Option (List β)
  | [] => some []
  | a :: rest =>
    match f a with
    | none => none
    | some b =>
      match traverseOption f rest with
      | none => none
      | some bs => some (b :: bs)

/-- The preview sequence used by both the home page and the article listing
(rev then map article_preview in the source); none when some article lacks a
title (panic). -/
def listingPreviews (articles : List Article) : Option (List Node) :=
  traverseOption article_preview articles.reverse

def index (blog_data : BlogData) (articles : List Article) : Option Fragment :=
  let tagline := processFragmentS blog_data.tagline
  (listingPreviews articles).map fun previews =>
    [ Node.element "main" []
        [ .element "div" [("class", "bl-main-wrapper")]
            [ .element "header" [("class", "bl-home")]
                [ .element "h1" [] [.text blog_data.title],
                  .element "p" [] [.fragment tagline] ] ] ],
      Node.element "div" [("class", "bl-main-wrapper")]
        [ .element "header" [] [.element "h2" [] [.text "Latest articles"]],
          .fragment previews ] ]

def article_page (a : Article) : Option Fragment :=
  match a.document.metadata.title with
  | none => none
  | some title =>
    let co := htmlOutput a.document
    some [ Node.element "main" [("class", "bl-main-wrapper")]
      [ .element "header" []
          [ .element "p" [] [.text a.date.formatS],
            .element "h1" [] [.text title] ],
        (match co.2 with
         | some summary =>
           .element "div" [("class", "bl-abstract")] [.fragment summary, separator]
         | none => .fragment []),
        .fragment co.1 ] ]

def socialNode (social : Social) : Node :=
  .element "a" [("href", social.url), ("target", "_blank"), ("title", social.name)]
    [ .element "svg" [("xmlns", "http://www.w3.org/2000/svg"),
        ("viewbox", "0 0 16 16"), ("alt", social.name)]
        [.element "use" [("href", "/assets/icons.svg#" ++ social.icon_name)] []],
      .element "span" [] [.text social.name] ]

def stylesheetNode (stylesheet : String) : Node :=
  .element "link" [("rel", "stylesheet"), ("type", "text/css"), ("href", stylesheet)] []

def layout (blog_data : BlogData) (inner : Fragment) : Fragment :=
  let footer := processFragmentS blog_data.footer
  let socials : Fragment := blog_data.socials.map socialNode
  let stylesheets : Fragment := blog_data.stylesheets.map stylesheetNode
  [ Node.element "html" [("lang", "en")]
      [ .element "head" []
          [ .element "meta" [("charset", "utf-8")] [],
            .element "meta" [("name", "viewport"),
              ("content", "width=device-width, initial-scale=1")] [],
            .element "title" [] [.text blog_data.title],
            .fragment stylesheets ],
        .element "body" []
          [ .element "nav" []
              [ .element "div" [("class", "bl-wrapper")]
                  [ .element "a" [("href", "/")] [.text blog_data.title],
                    .element "a" [("href", "/articles/")] [.text "Articles"],
                    .element "a" [("href", "/me/")] [.text "About me"],
                    .element "span" [("class", "bl-separator")] [.fragment []],
                    .fragment socials ] ],
            .fragment inner,
            .element "footer" []
              [ .element "div" [("class", "bl-wrapper")]
                  [separator, .fragment footer] ] ] ] ]

def article_list (articles : List Article) : Option Fragment :=
  (listingPreviews articles).map fun previews =>
    [Node.element "div" [("class", "bl-main-wrapper")] [.fragment previews]]

/-! ## The articles function: collect, filter, parse, sort -/

/-- A failed run: err for an anyhow error propagated with the question-mark
operator, panic for an unwrap failure. -/
inductive Failure where
  | err (e : String)
  | panic
deriving DecidableEq, Repr

/-- Rust collect into a Result of a Vec: the first error short-circuits. -/
def collectExcept : List (Except String α) → Except String (List α)
  | [] => .ok []
  | .error e :: _ => .error e
  | .ok a :: rest =>
    match collectExcept rest with
    | .error e => .error e
    | .ok as => .ok (a :: as)

/-- The retention filter of the articles function: the document is not a
draft and its date is present. -/
def retain (docs : List (Document × String)) : List (Document × String) :=
  docs.filter fun dp => !dp.1.metadata.draft && dp.1.metadata.date.isSome

/-- Building one Article: the unwrap on Date::parse panics (none) on a
malformed date string, and the unwrap on the date option is only reached for
retained documents. -/
def mkArticle (dp : Document × String) : Option Article :=
  match dp.1.metadata.date with
  | some s =>
    match parseDate s with
    | some dt => some ⟨dp.1, dp.2, dt⟩
    | none => none
  | none => none

/-- Comparison on the sort key (the derived Ord of the time crate on Date,
which is lexicographic on year and day-of-year, agrees with the
lexicographic order on year, month, day for the valid dates an Article
holds). -/
def dateLe (a b : Date) : Prop :=
  a.year < b.year ∨ (a.year = b.year ∧
    (a.month < b.month ∨ (a.month = b.month ∧ a.day ≤ b.day)))

instance : DecidableRel dateLe := fun a b =>
  inferInstanceAs (Decidable (a.year < b.year ∨ (a.year = b.year ∧
    (a.month < b.month ∨ (a.month = b.month ∧ a.day ≤ b.day)))))

def articleLe (a b : Article) : Prop := dateLe a.date b.date

instance : DecidableRel articleLe := fun a b =>
  inferInstanceAs (Decidable (dateLe a.date b.date))

instance : IsTotal Article articleLe :=
  ⟨by intro a b; unfold articleLe dateLe; omega⟩

instance : IsTrans Article articleLe :=
  ⟨by intro a b c; unfold articleLe dateLe; omega⟩

/-- The sort_unstable_by_key call on the date key, modelled as an insertion
sort.  The model produces a date-sorted permutation of its input, which is
the whole contract that sort_unstable_by_key gives its callers; the tie
order of this model (it keeps input order) is NOT a contract of the source,
whose unstable sort may reorder equal keys. -/
def sortByDate (l : List Article) : List Article :=
  List.insertionSort articleLe l

/-- The articles function (lines 86-109 of main.rs).  Its input is the
sequence of glob-and-process outcomes, in discovery order: for each matched
path, either an error (glob error or Document Processor failure, both
propagated with the question-mark operator) or the processed document with
the base name of the source file. -/
def articlesFn (inputs : List (Except String (Document × String))) :
    Except Failure (List Article) :=
  match collectExcept inputs with
  | .error e => .error (.err e)
  | .ok docs =>
    match traverseOption mkArticle (retain docs) with
    | none => .error .panic
    | some arts => .ok (sortByDate arts)

/-! ## Output writing (HtmlDocument, the write loops of main)

File paths are kept as their components, so joining paths is list append;
the Y/W argument of the join in the article loop contributes two components,
exactly as Path::join nests them. -/

def doctypeC : List Char := "<!DOCTYPE html>\n".data

/-- The Display impl of HtmlDocument: a DOCTYPE line followed by the
serialization of the fragment. -/
def htmlDocumentChars (f : Fragment) : List Char :=
  doctypeC ++ renderL f

structure WrittenFile where
  path : List String
  content : List Char

/-- The destination of the detail page of an article:
output, zero-padded calendar year, zero-padded ISO week, file stem,
index.html. -/
def articlePathSegs (a : Article) : List String :=
  ["output", rustPad4S a.date.year, rustPad2S a.date.isoWeek,
   fileStem a.path, "index.html"]

/-- The article loop of main (lines 229-243): each page is composed (the
missing-title unwrap panics) and written in order; a panic keeps the files
already written. -/
def articlesLoop (blog_data : BlogData) :
    List Article → List WrittenFile × Option Failure
  | [] => ([], none)
  | a :: rest =>
    match article_page a with
    | none => ([], some .panic)
    | some frag =>
      let file : WrittenFile :=
        ⟨articlePathSegs a, htmlDocumentChars (layout blog_data frag)⟩
      let r := articlesLoop blog_data rest
      (file :: r.1, r.2)

/-- The standalone-pages loop of main (lines 245-268).  The pages iterator
is lazy: each document is processed (process then unwrap, then the title
unwrap) only when the loop reaches it, after the previous page was already
written.  Each input is the base name of the source file paired with the
outcome of the Document Processor (none is a failure, a panic).  These pages
are written from the plain to_string of the page, without the HtmlDocument
wrapper. -/
def pagesLoop (blog_data : BlogData) :
    List (String × Option Document) → List WrittenFile × Option Failure
  | [] => ([], none)
  | (_, none) :: _ => ([], some .panic)
  | (p, some doc) :: rest =>
    match doc.metadata.title with
    | none => ([], some .panic)
    | some title =>
      let result := (htmlOutput doc).1
      let page : Fragment :=
        [ Node.element "main" [("class", "bl-main-wrapper")]
            [ .element "header" [] [.element "h1" [] [.text title]],
              .fragment result ] ]
      let file : WrittenFile :=
        ⟨["output", fileStem p, "index.html"],
         renderL (layout blog_data page)⟩
      let r := pagesLoop blog_data rest
      (file :: r.1, r.2)

/-- The main function after configuration loading: build the article corpus,
write the home page (DOCTYPE-wrapped), the article listing (plain to_string,
no HtmlDocument wrapper), every article detail page (DOCTYPE-wrapped) and
every standalone page (no wrapper).  The result is the list of files written
before the first failure, in write order, paired with the failure if any. -/
def mainRun (blog_data : BlogData)
    (articleInputs : List (Except String (Document × String)))
    (pageInputs : List (String × Option Document)) :
    List WrittenFile × Option Failure :=
  match articlesFn articleInputs with
  | .error e => ([], some e)
  | .ok articles =>
    match index blog_data articles with
    | none => ([], some .panic)
    | some homeInner =>
      let homeFile : WrittenFile :=
        ⟨["output", "index.html"], htmlDocumentChars (layout blog_data homeInner)⟩
      match article_list articles with
      | none => ([homeFile], some .panic)
      | some listInner =>
        let listFile : WrittenFile :=
          ⟨["output", "articles", "index.html"], renderL (layout blog_data listInner)⟩
        match articlesLoop blog_data articles with
        | (artFiles, some e) => (homeFile :: listFile :: artFiles, some e)
        | (artFiles, none) =>
          let r := pagesLoop blog_data pageInputs
          (homeFile :: listFile :: artFiles ++ r.1, r.2)

/-! ## Path normalization (for the output-tree confinement claim)

Dot and dot-dot components are resolved the way the filesystem resolves them
when a written path is opened; a relative path that climbs above its first
component therefore escapes it. -/

def normAux : List String → List String → List String
  | stack, [] => stack.reverse
  | stack, s :: rest =>
    if s = "." then normAux stack rest
    else if s = ".." then normAux (stack.drop 1) rest
    else normAux (s :: stack) rest

def normalizeSegs (l : List String) : List String :=
  normAux [] l

/-- A written path lies within the output tree iff, once dot and dot-dot
components are resolved, it still names a file strictly below output. -/
def withinOutput (p : List String) : Bool :=
  match normalizeSegs p with
  | "output" :: _ :: _ => true
  | _ => false

/-! ## Asset Resolver

Modelled from the spec: the Asset Resolver (Identity and FileBacked
policies, the manifest file and the CLI flag selecting it) is absent from
src/; the only trace in main.rs is the hardcoded assets URL in layout, which
follows the Identity rule.  Per the spec, resolve is total: Identity always
returns the assets-prefixed name; FileBacked returns the manifest-mapped URL
when the name is present and falls back to the Identity rule when it is
absent. -/

inductive AssetManifest where
  | identity
  | fileBacked (manifest : List (String × String))

def resolve : AssetManifest → String → String
  | .identity, name => "/assets/" ++ name
  | .fileBacked m, name =>
    match m.lookup name with
    | some url => url
    | none => "/assets/" ++ name

/-! ## Observation functions (extract previews, link targets, date text from
a composed fragment) -/

mutual

def collectPreviewsN : Node → List Node
  | .element t attrs cs =>
    if ("class", "bl-article-preview") ∈ attrs then [.element t attrs cs]
    else collectPreviews cs
  | .text _ => []
  | .fragment cs => collectPreviews cs

/-- All outermost nodes carrying the article-preview class, in document
order. -/
def collectPreviews : List Node → List Node
  | [] => []
  | n :: ns => collectPreviewsN n ++ collectPreviews ns

end

def nodeHref : Node → Option String
  | .element _ attrs _ => attrs.lookup "href"
  | _ => none

/-- The link target of the first child of a preview node (the anchor element
wrapping date and title). -/
def previewLinkHref : Node → Option String
  | .element _ _ (link :: _) => nodeHref link
  | _ => none

/-- The text of the date paragraph inside the anchor of a preview node. -/
def previewDateText : Node → Option String
  | .element _ _ (.element _ _ (.element _ _ [.text t] :: _) :: _) => some t
  | _ => none

/-- The route the routing claim asserts: year AND week both taken from ISO
week numbering (iso_year_week), against which the source route (calendar
year paired with ISO week) is compared. -/
def isoRouteSegs (a : Article) : List String :=
  ["output", rustPad4S a.date.isoYearWeek.1, rustPad2S a.date.isoYearWeek.2,
   fileStem a.path, "index.html"]

/-! ## Concrete inputs for counterexamples and witnesses -/

def cexBD : BlogData := ⟨"My Blog", "tag", "foot", [], []⟩

def cexDocHello : Document := ⟨⟨some "Hello", some "2024-03-15", false⟩, [], none⟩

def cexDocW53 : Document := ⟨⟨some "Hello", some "2024-12-30", false⟩, [], none⟩

def cexDocBogus : Document := ⟨⟨some "T", some "bogus", false⟩, [], none⟩

def cexDocDraft : Document := ⟨⟨some "D", some "2024-03-15", true⟩, [], none⟩

def cexDocPlus : Document := ⟨⟨some "T", some "+2024-01-01", false⟩, [], none⟩

def cexPage : Document := ⟨⟨some "About", none, false⟩, [], none⟩

def cexArtW53 : Article := ⟨cexDocW53, "hello.px", ⟨2024, 12, 30⟩⟩

def cexArtHello : Article := ⟨cexDocHello, "hello.px", ⟨2024, 3, 15⟩⟩

/-! ## Lemmas: digits and padding -/

theorem digitVal_eq_some {c : Char} {v : Nat} (h : digitVal c = some v) :
    v < 10 ∧ digitChar v = c := by
  unfold digitVal at h
  split_ifs at h
  all_goals injection h with hv
  all_goals (subst hv; subst_vars; exact ⟨by omega, rfl⟩)

theorem natCharsAux_fuel : ∀ (n f₁ f₂ : Nat), n < f₁ → n < f₂ →
    natCharsAux f₁ n = natCharsAux f₂ n := by
  intro n
  induction n using Nat.strong_induction_on with
  | _ n ih =>
    intro f₁ f₂ h₁ h₂
    obtain ⟨a, rfl⟩ : ∃ a, f₁ = a + 1 := ⟨f₁ - 1, by omega⟩
    obtain ⟨b, rfl⟩ : ∃ b, f₂ = b + 1 := ⟨f₂ - 1, by omega⟩
    simp only [natCharsAux]
    split_ifs with hn
    · rfl
    · have hd : n / 10 < n := Nat.div_lt_self (by omega) (by omega)
      rw [ih (n / 10) hd a b (by omega) (by omega)]

theorem natChars_small {n : Nat} (h : n < 10) : natChars n = [digitChar n] := by
  unfold natChars
  simp [natCharsAux, h]

theorem natChars_step {n : Nat} (h : 10 ≤ n) :
    natChars n = natChars (n / 10) ++ [digitChar (n % 10)] := by
  unfold natChars
  have h1 : natCharsAux (n + 1) n = natCharsAux n (n / 10) ++ [digitChar (n % 10)] := by
    simp only [natCharsAux]
    rw [if_neg (by omega)]
  rw [h1]
  have hd : n / 10 < n := Nat.div_lt_self (by omega) (by omega)
  rw [natCharsAux_fuel (n / 10) n (n / 10 + 1) (by omega) (by omega)]

theorem natChars_two {e f : Nat} (he1 : 1 ≤ e) (he : e < 10) (hf : f < 10) :
    natChars (e * 10 + f) = [digitChar e, digitChar f] := by
  rw [natChars_step (by omega)]
  have hdiv : (e * 10 + f) / 10 = e := by omega
  have hmod : (e * 10 + f) % 10 = f := by omega
  rw [hdiv, hmod, natChars_small he]
  rfl

theorem natChars_three {c e f : Nat} (hc1 : 1 ≤ c) (hc : c < 10) (he : e < 10)
    (hf : f < 10) :
    natChars ((c * 10 + e) * 10 + f) = [digitChar c, digitChar e, digitChar f] := by
  rw [natChars_step (by omega)]
  have hdiv : ((c * 10 + e) * 10 + f) / 10 = c * 10 + e := by omega
  have hmod : ((c * 10 + e) * 10 + f) % 10 = f := by omega
  rw [hdiv, hmod, natChars_two hc1 hc he]
  rfl

theorem natChars_four {b c e f : Nat} (hb1 : 1 ≤ b) (hb : b < 10) (hc : c < 10)
    (he : e < 10) (hf : f < 10) :
    natChars (((b * 10 + c) * 10 + e) * 10 + f) =
      [digitChar b, digitChar c, digitChar e, digitChar f] := by
  rw [natChars_step (by omega)]
  have hdiv : (((b * 10 + c) * 10 + e) * 10 + f) / 10 = (b * 10 + c) * 10 + e := by omega
  have hmod : (((b * 10 + c) * 10 + e) * 10 + f) % 10 = f := by omega
  rw [hdiv, hmod, natChars_three hb1 hb hc he]
  rfl

theorem pad2_digits {e f : Nat} (he : e < 10) (hf : f < 10) :
    rustPad2C (e * 10 + f) = [digitChar e, digitChar f] := by
  rcases Nat.eq_zero_or_pos e with rfl | he1
  · have hn : 0 * 10 + f = f := by omega
    rw [rustPad2C, hn, natChars_small hf]
    simp [padZeros, digitChar]
  · rw [rustPad2C, natChars_two he1 he hf]
    simp [padZeros]

theorem pad4_digits {a b c d : Nat} (ha : a < 10) (hb : b < 10) (hc : c < 10)
    (hd : d < 10) :
    padZeros 4 (natChars (((a * 10 + b) * 10 + c) * 10 + d)) =
      [digitChar a, digitChar b, digitChar c, digitChar d] := by
  rcases Nat.eq_zero_or_pos a with rfl | ha1
  · rcases Nat.eq_zero_or_pos b with rfl | hb1
    · rcases Nat.eq_zero_or_pos c with rfl | hc1
      · have hn : ((0 * 10 + 0) * 10 + 0) * 10 + d = d := by omega
        rw [hn, natChars_small hd]
        simp [padZeros, digitChar]
      · have hn : ((0 * 10 + 0) * 10 + c) * 10 + d = c * 10 + d := by omega
        rw [hn, natChars_two hc1 hc hd]
        simp [padZeros, digitChar]
    · have hn : ((0 * 10 + b) * 10 + c) * 10 + d = (b * 10 + c) * 10 + d := by omega
      rw [hn, natChars_three hb1 hb hc hd]
      simp [padZeros, digitChar]
  · rw [natChars_four ha1 ha hb hc hd]
    simp [padZeros]

theorem padZeros_le_length (w : Nat) (l : List Char) : w ≤ (padZeros w l).length := by
  simp [padZeros]
  omega

theorem natChars_last (n : Nat) : ∃ l k, k < 10 ∧ natChars n = l ++ [digitChar k] := by
  rcases Nat.lt_or_ge n 10 with h | h
  · exact ⟨[], n, h, by rw [natChars_small h]; rfl⟩
  · exact ⟨natChars (n / 10), n % 10, Nat.mod_lt _ (by omega), natChars_step h⟩

theorem digitChar_ne_dot : ∀ k, k < 10 → digitChar k ≠ '.' := by decide

theorem rustPad2S_ne_dots (n : Nat) : rustPad2S n ≠ "." ∧ rustPad2S n ≠ ".." := by
  obtain ⟨l, k, hk, hl⟩ := natChars_last n
  have hlast : (rustPad2C n).getLast? = some (digitChar k) := by
    rw [rustPad2C, padZeros, hl, ← List.append_assoc]
    exact List.getLast?_concat _
  constructor <;> intro h <;>
    (rw [rustPad2S] at h; have h2 := congrArg String.data h; simp at h2;
     rw [h2] at hlast; simp at hlast; exact digitChar_ne_dot k hk hlast.symm)

theorem rustPad4S_ne_dots (y : Int) : rustPad4S y ≠ "." ∧ rustPad4S y ≠ ".." := by
  have hlen : 4 ≤ (rustPad4C y).length := by
    rw [rustPad4C]
    split_ifs
    · have := padZeros_le_length 3 (natChars y.natAbs)
      simp
      omega
    · exact padZeros_le_length 4 (natChars y.natAbs)
  constructor <;> intro h <;>
    (rw [rustPad4S] at h; have h2 := congrArg String.data h; simp at h2;
     rw [h2] at hlen; simp at hlen)

/-! ## Lemmas: date bounds -/

theorem weekdayFromMonday_bounds (d : Date) :
    1 ≤ d.weekdayFromMonday ∧ d.weekdayFromMonday ≤ 7 := by
  unfold Date.weekdayFromMonday
  omega

theorem isValid_bounds {d : Date} (h : d.isValid = true) :
    1 ≤ d.month ∧ d.month ≤ 12 ∧ 1 ≤ d.day ∧ d.day ≤ daysInMonth d.year d.month := by
  rw [Date.isValid] at h
  simp only [Bool.and_eq_true, decide_eq_true_eq] at h
  omega

theorem daysInMonth_le (y : Int) (m : Nat) : daysInMonth y m ≤ 31 := by
  rw [daysInMonth]
  split_ifs <;> omega

theorem ordinal_bounds {d : Date} (h : d.isValid = true) :
    1 ≤ d.ordinal ∧ d.ordinal ≤ 366 := by
  obtain ⟨h1, h2, h3, h4⟩ := isValid_bounds h
  obtain ⟨y, m, day⟩ := d
  simp only at h1 h2 h3 h4
  constructor
  · simp [Date.ordinal]
    omega
  · interval_cases m <;>
      simp_all [Date.ordinal, daysBeforeMonth, daysInMonth] <;>
      (try split_ifs at *) <;> omega

theorem weeksInYear_cases (y : Int) : weeksInYear y = 52 ∨ weeksInYear y = 53 := by
  rw [weeksInYear]
  split_ifs <;> simp

theorem collectExcept_eq_ok {l : List (Except String α)} {as : List α} :
    collectExcept l = .ok as ↔ l = as.map Except.ok := by
  induction l generalizing as with
  | nil =>
    constructor
    · intro h
      injection h with h
      subst h
      rfl
    · intro h
      cases as with
      | nil => rfl
      | cons a as => exact absurd h (by simp)
  | cons x rest ih =>
    cases x with
    | error e =>
      constructor
      · intro h
        exact absurd h (by simp [collectExcept])
      · intro h
        cases as with
        | nil => exact absurd h (by simp)
        | cons a as => simp at h
    | ok a =>
      constructor
      · intro h
        rw [collectExcept] at h
        cases hr : collectExcept rest with
        | error e => rw [hr] at h; exact absurd h (by simp)
        | ok bs =>
          rw [hr] at h
          injection h with h
          subst h
          rw [ih.mp hr]
          rfl
      · intro h
        cases as with
        | nil => exact absurd h (by simp)
        | cons b bs =>
          simp only [List.map_cons, List.cons.injEq] at h
          obtain ⟨h1, h2⟩ := h
          injection h1 with h1
          subst h1
          rw [collectExcept, ih.mpr h2]

theorem collectExcept_error_of_mem {l : List (Except String α)} {e : String}
    (h : Except.error e ∈ l) : ∃ e2, collectExcept l = .error e2 := by
  induction l with
  | nil => cases h
  | cons x rest ih =>
    cases x with
    | error e2 => exact ⟨e2, rfl⟩
    | ok a =>
      rcases List.mem_cons.mp h with h | h
      · exact absurd h (by simp)
      · obtain ⟨e2, he2⟩ := ih h
        exact ⟨e2, by rw [collectExcept, he2]⟩

theorem traverseOption_some_iff {f : α → Option β} {l : List α} {bs : List β} :
    traverseOption f l = some bs ↔ List.Forall₂ (fun a b => f a = some b) l bs := by
  induction l generalizing bs with
  | nil =>
    constructor
    · intro h
      injection h with h
      subst h
      exact List.Forall₂.nil
    · intro h
      cases h
      rfl
  | cons a rest ih =>
    constructor
    · intro h
      rw [traverseOption] at h
      cases hf : f a with
      | none => rw [hf] at h; exact absurd h (by simp)
      | some b =>
        rw [hf] at h
        cases hr : traverseOption f rest with
        | none => rw [hr] at h; exact absurd h (by simp)
        | some cs =>
          rw [hr] at h
          injection h with h
          subst h
          exact List.Forall₂.cons hf (ih.mp hr)
    · intro h
      cases h with
      | cons hf hrest =>
        rw [traverseOption, hf, ih.mpr hrest]

theorem traverseOption_none_of_mem {f : α → Option β} {l : List α} {a : α}
    (ha : a ∈ l) (hf : f a = none) : traverseOption f l = none := by
  induction l with
  | nil => cases ha
  | cons x rest ih =>
    rcases List.mem_cons.mp ha with ha | ha
    · subst ha
      rw [traverseOption, hf]
    · rw [traverseOption]
      cases hx : f x with
      | none => rfl
      | some b => rw [ih ha]

theorem forall₂_mem_right {R : α → β → Prop} {l₁ : List α} {l₂ : List β} {b : β}
    (h : List.Forall₂ R l₁ l₂) (hb : b ∈ l₂) : ∃ a, a ∈ l₁ ∧ R a b := by
  induction h with
  | nil => cases hb
  | cons hr _ ih =>
    rcases List.mem_cons.mp hb with hb | hb
    · exact ⟨_, List.mem_cons_self _ _, hb ▸ hr⟩
    · obtain ⟨a, ha, har⟩ := ih hb
      exact ⟨a, List.mem_cons_of_mem _ ha, har⟩

theorem forall₂_mem_left {R : α → β → Prop} {l₁ : List α} {l₂ : List β} {a : α}
    (h : List.Forall₂ R l₁ l₂) (ha : a ∈ l₁) : ∃ b, b ∈ l₂ ∧ R a b := by
  induction h with
  | nil => cases ha
  | cons hr _ ih =>
    rcases List.mem_cons.mp ha with ha | ha
    · exact ⟨_, List.mem_cons_self _ _, ha ▸ hr⟩
    · obtain ⟨b, hb, hbr⟩ := ih ha
      exact ⟨b, List.mem_cons_of_mem _ hb, hbr⟩

theorem sortByDate_perm (l : List Article) : List.Perm (sortByDate l) l :=
  List.perm_insertionSort articleLe l

theorem sortByDate_sorted (l : List Article) : List.Sorted articleLe (sortByDate l) :=
  List.sorted_insertionSort articleLe l

theorem mkArticle_eq_some {dp : Document × String} {a : Article} :
    mkArticle dp = some a ↔
      ∃ s dt, dp.1.metadata.date = some s ∧ parseDate s = some dt ∧
        a = ⟨dp.1, dp.2, dt⟩ := by
  constructor
  · intro h
    cases hd : dp.1.metadata.date with
    | none =>
      simp only [mkArticle, hd] at h
      exact Option.noConfusion h
    | some s =>
      cases hp : parseDate s with
      | none =>
        simp only [mkArticle, hd, hp] at h
        exact Option.noConfusion h
      | some dt =>
        simp only [mkArticle, hd, hp, Option.some.injEq] at h
        exact ⟨s, dt, rfl, hp, h.symm⟩
  · rintro ⟨s, dt, hd, hp, rfl⟩
    simp only [mkArticle, hd, hp]

theorem articlesFn_ok_iff {inputs : List (Except String (Document × String))}
    {arts : List Article} :
    articlesFn inputs = .ok arts ↔
      ∃ docs as, inputs = docs.map Except.ok ∧
        traverseOption mkArticle (retain docs) = some as ∧
        arts = sortByDate as := by
  constructor
  · intro h
    cases hc : collectExcept inputs with
    | error e =>
      simp only [articlesFn, hc] at h
      exact Except.noConfusion h
    | ok docs =>
      cases ht : traverseOption mkArticle (retain docs) with
      | none =>
        simp only [articlesFn, hc, ht] at h
        exact Except.noConfusion h
      | some as =>
        simp only [articlesFn, hc, ht, Except.ok.injEq] at h
        exact ⟨docs, as, collectExcept_eq_ok.mp hc, ht, h.symm⟩
  · rintro ⟨docs, as, hin, ht, rfl⟩
    simp only [articlesFn, collectExcept_eq_ok.mpr hin, ht]

/-- Membership characterization used by several claims: given a successful
run of the articles function, an input document yields an article iff it is
not a draft, has a date, and the date parses. -/
theorem mem_articles_iff {inputs : List (Except String (Document × String))}
    {arts : List Article} {dp : Document × String}
    (h : articlesFn inputs = .ok arts) (hdp : Except.ok dp ∈ inputs) :
    (∃ a, a ∈ arts ∧ a.document = dp.1 ∧ a.path = dp.2) ↔
      (dp.1.metadata.draft = false ∧
        ∃ s dt, dp.1.metadata.date = some s ∧ parseDate s = some dt) := by
  obtain ⟨docs, as, hin, ht, rfl⟩ := articlesFn_ok_iff.mp h
  have hdocs : dp ∈ docs := by
    subst hin
    simpa using hdp
  constructor
  · rintro ⟨a, ha, hadoc, hapath⟩
    have ha2 : a ∈ as := ((sortByDate_perm as).mem_iff).mp ha
    obtain ⟨dp2, hdp2, hmk⟩ := forall₂_mem_right (traverseOption_some_iff.mp ht) ha2
    obtain ⟨s, dt, hdate, hparse, rfl⟩ := mkArticle_eq_some.mp hmk
    have hdpe : dp2 = dp := by
      obtain ⟨d1, p1⟩ := dp
      obtain ⟨d2, p2⟩ := dp2
      simp only at hadoc hapath
      rw [hadoc, hapath]
    subst hdpe
    have hret := List.mem_filter.mp hdp2
    have hdraft : dp2.1.metadata.draft = false := by
      have := hret.2
      simp only [Bool.and_eq_true, Bool.not_eq_true'] at this
      exact this.1
    exact ⟨hdraft, s, dt, hdate, hparse⟩
  · rintro ⟨hdraft, s, dt, hdate, hparse⟩
    have hret : dp ∈ retain docs := by
      rw [retain]
      refine List.mem_filter.mpr ⟨hdocs, ?_⟩
      simp [hdraft, hdate]
    obtain ⟨b, hb, hmk⟩ := forall₂_mem_left (traverseOption_some_iff.mp ht) hret
    obtain ⟨s2, dt2, hdate2, _, rfl⟩ := mkArticle_eq_some.mp hmk
    exact ⟨_, ((sortByDate_perm as).mem_iff).mpr hb, rfl, rfl⟩

theorem isoWeek_bounds {d : Date} (h : d.isValid = true) :
    1 ≤ d.isoWeek ∧ d.isoWeek ≤ 53 := by
  obtain ⟨ho1, ho2⟩ := ordinal_bounds h
  obtain ⟨hw1, hw2⟩ := weekdayFromMonday_bounds d
  rw [Date.isoWeek, Date.isoYearWeek]
  have hub : (d.ordinal + 10 - d.weekdayFromMonday) / 7 ≤ 53 := by omega
  split_ifs with c1 c2
  · rcases weeksInYear_cases (d.year - 1) with h1 | h1 <;> simp [h1]
  · simp
  · simp
    omega

/-! ## Lemmas: serialization prefixes -/

theorem layout_head (bd : BlogData) (inner : Fragment) :
    ∃ r, renderL (layout bd inner) = '<' :: 'h' :: r := by
  exact ⟨_, rfl⟩

theorem doctype_isPrefixOf_htmlDocument (f : Fragment) :
    doctypeC.isPrefixOf (htmlDocumentChars f) = true := by
  rw [htmlDocumentChars]
  simp only [ List.isPrefixOf_iff_prefix]
  exact ⟨renderL f, rfl⟩

theorem doctype_not_isPrefixOf_layout (bd : BlogData) (inner : Fragment) :
    doctypeC.isPrefixOf (renderL (layout bd inner)) = false := by
  obtain ⟨r, hr⟩ := layout_head bd inner
  rw [hr]
  rfl

/-! ## Lemmas: the write loops and the main run -/

theorem articlesLoop_mem {bd : BlogData} {l : List Article} {wf : WrittenFile}
    (h : wf ∈ (articlesLoop bd l).1) :
    ∃ a, a ∈ l ∧ wf.path = articlePathSegs a ∧
      ∃ frag, article_page a = some frag ∧
        wf.content = htmlDocumentChars (layout bd frag) := by
  induction l with
  | nil => simp [articlesLoop] at h
  | cons a rest ih =>
    cases hp : article_page a with
    | none => simp [articlesLoop, hp] at h
    | some frag =>
      simp only [articlesLoop, hp] at h
      rcases List.mem_cons.mp h with h | h
      · subst h
        exact ⟨a, List.mem_cons_self _ _, rfl, frag, hp, rfl⟩
      · obtain ⟨a2, ha2, hpath, f2, hf2, hc2⟩ := ih h
        exact ⟨a2, List.mem_cons_of_mem _ ha2, hpath, f2, hf2, hc2⟩

theorem articlesLoop_complete {bd : BlogData} {l : List Article}
    (h : (articlesLoop bd l).2 = none) :
    ∀ a, a ∈ l → ∃ wf, wf ∈ (articlesLoop bd l).1 ∧ wf.path = articlePathSegs a := by
  induction l with
  | nil => intro a ha; cases ha
  | cons b rest ih =>
    intro a ha
    cases hp : article_page b with
    | none => simp [articlesLoop, hp] at h
    | some frag =>
      simp only [articlesLoop, hp] at h ⊢
      rcases List.mem_cons.mp ha with ha | ha
      · subst ha
        exact ⟨_, List.mem_cons_self _ _, rfl⟩
      · obtain ⟨wf, hwf, hpath⟩ := ih h a ha
        exact ⟨wf, List.mem_cons_of_mem _ hwf, hpath⟩

theorem pagesLoop_mem {bd : BlogData} {l : List (String × Option Document)}
    {wf : WrittenFile} (h : wf ∈ (pagesLoop bd l).1) :
    ∃ p doc, (p, some doc) ∈ l ∧
      wf.path = ["output", fileStem p, "index.html"] ∧
      ∃ inner, wf.content = renderL (layout bd inner) := by
  induction l with
  | nil => simp [pagesLoop] at h
  | cons pd rest ih =>
    obtain ⟨p, od⟩ := pd
    cases od with
    | none => simp [pagesLoop] at h
    | some doc =>
      cases ht : doc.metadata.title with
      | none => simp [pagesLoop, ht] at h
      | some title =>
        simp only [pagesLoop, ht] at h
        rcases List.mem_cons.mp h with h | h
        · subst h
          exact ⟨p, doc, List.mem_cons_self _ _, rfl, _, rfl⟩
        · obtain ⟨p2, d2, hmem, hpath, inner, hc⟩ := ih h
          exact ⟨p2, d2, List.mem_cons_of_mem _ hmem, hpath, inner, hc⟩

theorem pagesLoop_complete {bd : BlogData} {l : List (String × Option Document)}
    (h : (pagesLoop bd l).2 = none) :
    ∀ pd, pd ∈ l → (∃ doc, pd.2 = some doc) ∧
      ∃ wf, wf ∈ (pagesLoop bd l).1 ∧
        wf.path = ["output", fileStem pd.1, "index.html"] := by
  induction l with
  | nil => intro pd hpd; cases hpd
  | cons qd rest ih =>
    intro pd hpd
    obtain ⟨q, oq⟩ := qd
    cases oq with
    | none => simp [pagesLoop] at h
    | some doc =>
      cases ht : doc.metadata.title with
      | none => simp [pagesLoop, ht] at h
      | some title =>
        simp only [pagesLoop, ht] at h ⊢
        rcases List.mem_cons.mp hpd with hpd | hpd
        · subst hpd
          exact ⟨⟨doc, rfl⟩, _, List.mem_cons_self _ _, rfl⟩
        · obtain ⟨hdoc, wf, hwf, hpath⟩ := ih h pd hpd
          exact ⟨hdoc, wf, List.mem_cons_of_mem _ hwf, hpath⟩

theorem pagesLoop_fails {bd : BlogData} {l : List (String × Option Document)}
    {p : String} (h : (p, none) ∈ l) : (pagesLoop bd l).2.isSome = true := by
  induction l with
  | nil => cases h
  | cons qd rest ih =>
    obtain ⟨q, oq⟩ := qd
    cases oq with
    | none => simp [pagesLoop]
    | some doc =>
      cases ht : doc.metadata.title with
      | none => simp [pagesLoop, ht]
      | some title =>
        simp only [pagesLoop, ht]
        rcases List.mem_cons.mp h with h | h
        · exact absurd h (by simp)
        · exact ih h

/-- Every file written by a run is the home page, the article listing, the
detail page of a retained article, or a standalone page; the home page and
the article detail pages are DOCTYPE-wrapped, the other two kinds are
serialized bare. -/
theorem mainRun_files_shape {bd : BlogData}
    {ai : List (Except String (Document × String))}
    {pi : List (String × Option Document)} {wf : WrittenFile}
    (h : wf ∈ (mainRun bd ai pi).1) :
    (wf.path = ["output", "index.html"] ∧
       ∃ f, wf.content = htmlDocumentChars (layout bd f)) ∨
    (wf.path = ["output", "articles", "index.html"] ∧
       ∃ inner, wf.content = renderL (layout bd inner)) ∨
    (∃ arts a, articlesFn ai = .ok arts ∧ a ∈ arts ∧
       wf.path = articlePathSegs a ∧
       ∃ f, wf.content = htmlDocumentChars (layout bd f)) ∨
    (∃ p doc, (p, some doc) ∈ pi ∧
       wf.path = ["output", fileStem p, "index.html"] ∧
       ∃ inner, wf.content = renderL (layout bd inner)) := by
  cases ha : articlesFn ai with
  | error e => simp [mainRun, ha] at h
  | ok arts =>
    cases hi : index bd arts with
    | none => simp [mainRun, ha, hi] at h
    | some homeInner =>
      cases hl : article_list arts with
      | none =>
        simp only [mainRun, ha, hi, hl] at h
        rcases List.mem_cons.mp h with h | h
        · subst h
          exact Or.inl ⟨rfl, _, rfl⟩
        · cases h
      | some listInner =>
        cases hloop : articlesLoop bd arts with
        | mk artFiles e =>
          cases e with
          | some e =>
            simp only [mainRun, ha, hi, hl, hloop] at h
            rcases List.mem_cons.mp h with h | h
            · subst h
              exact Or.inl ⟨rfl, _, rfl⟩
            · rcases List.mem_cons.mp h with h | h
              · subst h
                exact Or.inr (Or.inl ⟨rfl, _, rfl⟩)
              · have h2 : wf ∈ (articlesLoop bd arts).1 := by rw [hloop]; exact h
                obtain ⟨a, hmem, hpath, frag, hfrag, hc⟩ := articlesLoop_mem h2
                exact Or.inr (Or.inr (Or.inl ⟨arts, a, rfl, hmem, hpath, _, hc⟩))
          | none =>
            simp only [mainRun, ha, hi, hl, hloop] at h
            rcases List.mem_cons.mp h with h | h
            · subst h
              exact Or.inl ⟨rfl, _, rfl⟩
            · rcases List.mem_cons.mp h with h | h
              · subst h
                exact Or.inr (Or.inl ⟨rfl, _, rfl⟩)
              · rcases List.mem_append.mp h with h | h
                · have h2 : wf ∈ (articlesLoop bd arts).1 := by rw [hloop]; exact h
                  obtain ⟨a, hmem, hpath, frag, hfrag, hc⟩ := articlesLoop_mem h2
                  exact Or.inr (Or.inr (Or.inl ⟨arts, a, rfl, hmem, hpath, _, hc⟩))
                · obtain ⟨p, doc, hmem, hpath, inner, hc⟩ := pagesLoop_mem h
                  exact Or.inr (Or.inr (Or.inr ⟨p, doc, hmem, hpath, inner, hc⟩))

/-! ## Lemmas: path normalization -/

theorem normAux_cons_ok {s : String} (hs1 : s ≠ ".") (hs2 : s ≠ "..") (st rest :
    List String) : normAux st (s :: rest) = normAux (s :: st) rest := by
  rw [normAux, if_neg hs1, if_neg hs2]

theorem normAux_cons_dot (st rest : List String) :
    normAux st ("." :: rest) = normAux st rest := by
  rw [normAux, if_pos rfl]

theorem normAux_cons_dotdot (st rest : List String) :
    normAux st (".." :: rest) = normAux (st.drop 1) rest := by
  rw [normAux, if_neg (by decide), if_pos rfl]

theorem withinOutput_page {s : String} (hs2 : s ≠ "..") :
    withinOutput ["output", s, "index.html"] = true := by
  by_cases hs1 : s = "."
  · subst hs1
    rw [withinOutput, normalizeSegs,
      normAux_cons_ok (by decide) (by decide),
      normAux_cons_dot,
      normAux_cons_ok (by decide) (by decide)]
    rfl
  · rw [withinOutput, normalizeSegs,
      normAux_cons_ok (by decide) (by decide),
      normAux_cons_ok hs1 hs2,
      normAux_cons_ok (by decide) (by decide)]
    rfl

theorem withinOutput_article {a b : String} (ha1 : a ≠ ".") (ha2 : a ≠ "..")
    (hb1 : b ≠ ".") (hb2 : b ≠ "..") (c : String) :
    withinOutput ["output", a, b, c, "index.html"] = true := by
  rw [withinOutput, normalizeSegs,
    normAux_cons_ok (by decide) (by decide),
    normAux_cons_ok ha1 ha2,
    normAux_cons_ok hb1 hb2]
  by_cases hc1 : c = "."
  · subst hc1
    rw [normAux_cons_dot, normAux_cons_ok (by decide) (by decide)]
    rfl
  · by_cases hc2 : c = ".."
    · subst hc2
      rw [normAux_cons_dotdot, normAux_cons_ok (by decide) (by decide)]
      rfl
    · rw [normAux_cons_ok hc1 hc2, normAux_cons_ok (by decide) (by decide)]
      rfl

/-! ## Lemmas: preview extraction and listing order -/

theorem article_preview_shape {a : Article} {p : Node}
    (h : article_preview a = some p) :
    ∃ cs, p = .element "article" [("class", "bl-article-preview")] cs := by
  cases ht : a.document.metadata.title with
  | none => simp [article_preview, ht] at h
  | some t =>
    simp only [article_preview, ht, Option.some.injEq] at h
    exact ⟨_, h.symm⟩

theorem collectPreviews_append (l₁ l₂ : List Node) :
    collectPreviews (l₁ ++ l₂) = collectPreviews l₁ ++ collectPreviews l₂ := by
  induction l₁ with
  | nil => simp [collectPreviews]
  | cons n ns ih => simp [collectPreviews, ih]

theorem collectPreviews_of_previews {arts : List Article} {ps : List Node}
    (h : List.Forall₂ (fun a p => article_preview a = some p) arts ps) :
    collectPreviews ps = ps := by
  induction h with
  | nil => simp [collectPreviews]
  | cons hap _ ih =>
    obtain ⟨cs, rfl⟩ := article_preview_shape hap
    rw [collectPreviews, collectPreviewsN, if_pos (by simp)]
    rw [ih]
    rfl

theorem listing_reverse_chrono {arts : List Article}
    (hs : List.Sorted articleLe arts) :
    ∀ i j : Fin arts.reverse.length,
      dateLt (arts.reverse.get i).date (arts.reverse.get j).date →
        (j : Nat) < (i : Nat) := by
  intro i j hlt
  by_contra hij
  push_neg at hij
  have hp : arts.reverse.Pairwise (fun a b => articleLe b a) := by
    rw [List.pairwise_reverse]
    exact hs
  rcases Nat.lt_or_ge (i : Nat) (j : Nat) with hlt2 | hge
  · have hle := List.pairwise_iff_get.mp hp i j hlt2
    unfold articleLe dateLe at hle
    unfold dateLt at hlt
    omega
  · have hije : i = j := Fin.ext (by omega)
    subst hije
    unfold dateLt at hlt
    omega

theorem collectPreviews_index {bd : BlogData} {arts : List Article}
    {ps : List Node} {f : Fragment}
    (hps : listingPreviews arts = some ps) (hf : index bd arts = some f) :
    collectPreviews f = ps := by
  simp only [index, hps, Option.map_some', Option.some.injEq] at hf
  subst hf
  have hcol := collectPreviews_of_previews
    (traverseOption_some_iff.mp (by rw [← listingPreviews]; exact hps))
  simp [collectPreviews, collectPreviewsN, collectPreviews_append,
    processFragmentS, hcol]

theorem collectPreviews_article_list {arts : List Article}
    {ps : List Node} {f : Fragment}
    (hps : listingPreviews arts = some ps) (hf : article_list arts = some f) :
    collectPreviews f = ps := by
  simp only [article_list, hps, Option.map_some', Option.some.injEq] at hf
  subst hf
  have hcol := collectPreviews_of_previews
    (traverseOption_some_iff.mp (by rw [← listingPreviews]; exact hps))
  simp [collectPreviews, collectPreviewsN, collectPreviews_append, hcol]


/-! ## Lemmas: the parse-format round trip -/

theorem parseYMD_eq_some {l : List Char} {y m dd : Nat}
    (h : parseYMD l = some (y, m, dd)) :
    ∃ y1 y2 y3 y4 m1 m2 d1 d2 a b c d e f g hh,
      l = [y1, y2, y3, y4, '-', m1, m2, '-', d1, d2] ∧
      digitVal y1 = some a ∧ digitVal y2 = some b ∧ digitVal y3 = some c ∧
      digitVal y4 = some d ∧ digitVal m1 = some e ∧ digitVal m2 = some f ∧
      digitVal d1 = some g ∧ digitVal d2 = some hh ∧
      y = ((a * 10 + b) * 10 + c) * 10 + d ∧ m = e * 10 + f ∧
      dd = g * 10 + hh := by
  rcases l with _ | ⟨y1, _ | ⟨y2, _ | ⟨y3, _ | ⟨y4, _ | ⟨s1, _ | ⟨m1, _ | ⟨m2,
    _ | ⟨s2, _ | ⟨d1, _ | ⟨d2, _ | ⟨x, rest⟩⟩⟩⟩⟩⟩⟩⟩⟩⟩⟩ <;>
      try (exfalso; revert h; simp [parseYMD]; done)
  simp only [parseYMD] at h
  split_ifs at h with hsep
  · obtain ⟨hs1, hs2⟩ := hsep
    subst hs1
    subst hs2
    cases ha : digitVal y1 with
    | none =>
      simp only [ha] at h
      exact Option.noConfusion h
    | some a =>
    cases hb : digitVal y2 with
    | none =>
      simp only [ha, hb] at h
      exact Option.noConfusion h
    | some b =>
    cases hc : digitVal y3 with
    | none =>
      simp only [ha, hb, hc] at h
      exact Option.noConfusion h
    | some c =>
    cases hd : digitVal y4 with
    | none =>
      simp only [ha, hb, hc, hd] at h
      exact Option.noConfusion h
    | some d =>
    cases he : digitVal m1 with
    | none =>
      simp only [ha, hb, hc, hd, he] at h
      exact Option.noConfusion h
    | some e =>
    cases hf : digitVal m2 with
    | none =>
      simp only [ha, hb, hc, hd, he, hf] at h
      exact Option.noConfusion h
    | some f =>
    cases hg : digitVal d1 with
    | none =>
      simp only [ha, hb, hc, hd, he, hf, hg] at h
      exact Option.noConfusion h
    | some g =>
    cases hh : digitVal d2 with
    | none =>
      simp only [ha, hb, hc, hd, he, hf, hg, hh] at h
      exact Option.noConfusion h
    | some hh2 =>
    simp only [ha, hb, hc, hd, he, hf, hg, hh, Option.some.injEq,
      Prod.mk.injEq] at h
    obtain ⟨hy, hm, hdd⟩ := h
    exact ⟨y1, y2, y3, y4, m1, m2, d1, d2, a, b, c, d, e, f, g, hh2,
      rfl, ha, hb, hc, hd, he, hf, hg, hh, hy.symm, hm.symm, hdd.symm⟩

theorem parseDateChars_minus (t : List Char) :
    parseDateChars ('-' :: t) =
      match parseYMD t with
      | some (y, m, dd) =>
        if (⟨(-1 : Int) * (y : Int), m, dd⟩ : Date).isValid
        then some ⟨(-1 : Int) * (y : Int), m, dd⟩ else none
      | none => none := rfl

theorem parseDateChars_other {c : Char} (t : List Char) (hc1 : c ≠ '+')
    (hc2 : c ≠ '-') :
    parseDateChars (c :: t) =
      match parseYMD (c :: t) with
      | some (y, m, dd) =>
        if (⟨(1 : Int) * (y : Int), m, dd⟩ : Date).isValid
        then some ⟨(1 : Int) * (y : Int), m, dd⟩ else none
      | none => none := by
  rw [parseDateChars]
  simp only [if_neg hc1, if_neg hc2]

theorem timeYearChars_digits {a b c d : Nat} (ha : a < 10) (hb : b < 10)
    (hc : c < 10) (hd : d < 10) :
    timeYearChars ((((a * 10 + b) * 10 + c) * 10 + d : Nat) : Int) =
      [digitChar a, digitChar b, digitChar c, digitChar d] := by
  rw [timeYearChars, if_neg (by omega), Int.natAbs_ofNat]
  simp only [List.nil_append]
  exact pad4_digits ha hb hc hd

/-- Formatting after a successful parse reproduces the input except for a
redundant sign: a leading plus, or a minus in front of a zero year. -/
theorem format_of_parse {l : List Char} {d : Date}
    (h : parseDateChars l = some d)
    (hplus : l.head? ≠ some '+')
    (hneg : l.head? = some '-' → d.year ≠ 0) :
    d.formatChars = l := by
  rcases l with _ | ⟨c, t⟩
  · simp [parseDateChars, parseYMD] at h
  by_cases hc1 : c = '+'
  · subst hc1
    exact absurd rfl hplus
  by_cases hc2 : c = '-'
  · subst hc2
    rw [parseDateChars_minus] at h
    cases hp : parseYMD t with
    | none =>
      simp only [hp] at h
      exact Option.noConfusion h
    | some ymd =>
      obtain ⟨y, m, dd⟩ := ymd
      simp only [hp] at h
      split_ifs at h with hv
      · injection h with h
        subst h
        obtain ⟨y1, y2, y3, y4, m1, m2, d1, d2, a, b, c2, d2v, e, f, g, hh,
          hteq, ha, hb, hc, hd, he, hf, hg, hh2, hy, hm, hdd⟩ :=
          parseYMD_eq_some hp
        have hy0 : y ≠ 0 := by
          intro h0
          exact hneg rfl (by simp [h0])
        have hyneg : ((-1 : Int) * (y : Int)) < 0 := by omega
        rw [Date.formatChars]
        simp only
        rw [timeYearChars, if_pos hyneg]
        have habs : ((-1 : Int) * (y : Int)).natAbs = y := by omega
        rw [habs, hy, hm, hdd,
          pad4_digits (digitVal_eq_some ha).1 (digitVal_eq_some hb).1
            (digitVal_eq_some hc).1 (digitVal_eq_some hd).1]
        rw [rustPad2C, rustPad2C]
        have hmm : e * 10 + f = (e * 10 + f : Nat) := rfl
        rw [show padZeros 2 (natChars (e * 10 + f)) =
              [digitChar e, digitChar f] from
            pad2_digits (digitVal_eq_some he).1 (digitVal_eq_some hf).1]
        rw [show padZeros 2 (natChars (g * 10 + hh)) =
              [digitChar g, digitChar hh] from
            pad2_digits (digitVal_eq_some hg).1 (digitVal_eq_some hh2).1]
        rw [(digitVal_eq_some ha).2, (digitVal_eq_some hb).2,
          (digitVal_eq_some hc).2, (digitVal_eq_some hd).2,
          (digitVal_eq_some he).2, (digitVal_eq_some hf).2,
          (digitVal_eq_some hg).2, (digitVal_eq_some hh2).2, hteq]
        rfl
  · rw [parseDateChars_other t hc1 hc2] at h
    cases hp : parseYMD (c :: t) with
    | none =>
      simp only [hp] at h
      exact Option.noConfusion h
    | some ymd =>
      obtain ⟨y, m, dd⟩ := ymd
      simp only [hp] at h
      split_ifs at h with hv
      · injection h with h
        subst h
        obtain ⟨y1, y2, y3, y4, m1, m2, d1, d2, a, b, c2, d2v, e, f, g, hh,
          hteq, ha, hb, hc, hd, he, hf, hg, hh2, hy, hm, hdd⟩ :=
          parseYMD_eq_some hp
        rw [Date.formatChars]
        simp only
        have hone : ((1 : Int) * (y : Int)) = ((y : Nat) : Int) := by omega
        rw [hone, hy, hm, hdd, timeYearChars_digits
          (digitVal_eq_some ha).1 (digitVal_eq_some hb).1
          (digitVal_eq_some hc).1 (digitVal_eq_some hd).1]
        rw [rustPad2C, rustPad2C]
        rw [show padZeros 2 (natChars (e * 10 + f)) =
              [digitChar e, digitChar f] from
            pad2_digits (digitVal_eq_some he).1 (digitVal_eq_some hf).1]
        rw [show padZeros 2 (natChars (g * 10 + hh)) =
              [digitChar g, digitChar hh] from
            pad2_digits (digitVal_eq_some hg).1 (digitVal_eq_some hh2).1]
        rw [(digitVal_eq_some ha).2, (digitVal_eq_some hb).2,
          (digitVal_eq_some hc).2, (digitVal_eq_some hd).2,
          (digitVal_eq_some he).2, (digitVal_eq_some hf).2,
          (digitVal_eq_some hg).2, (digitVal_eq_some hh2).2, hteq]
        rfl


/-! ## Lemmas: failure propagation and completeness of the main run -/

theorem articlesFn_error_of_mem {ai : List (Except String (Document × String))}
    {e : String} (h : Except.error e ∈ ai) :
    ∃ e2, articlesFn ai = .error (.err e2) := by
  obtain ⟨e2, he2⟩ := collectExcept_error_of_mem h
  exact ⟨e2, by simp only [articlesFn, he2]⟩

theorem articlesFn_panic_of_malformed
    {ai : List (Except String (Document × String))}
    {docs : List (Document × String)} {dp : Document × String} {s : String}
    (hc : collectExcept ai = .ok docs) (hdp : dp ∈ docs)
    (hdraft : dp.1.metadata.draft = false)
    (hdate : dp.1.metadata.date = some s) (hbad : parseDate s = none) :
    articlesFn ai = .error .panic := by
  have hret : dp ∈ retain docs := by
    rw [retain]
    refine List.mem_filter.mpr ⟨hdp, ?_⟩
    simp [hdraft, hdate]
  have hmk : mkArticle dp = none := by
    simp only [mkArticle, hdate, hbad]
  simp only [articlesFn, hc, traverseOption_none_of_mem hret hmk]

theorem mainRun_fails_of_article_error {bd : BlogData}
    {ai : List (Except String (Document × String))}
    {pi : List (String × Option Document)} {e : String}
    (h : Except.error e ∈ ai) : (mainRun bd ai pi).2.isSome = true := by
  obtain ⟨e2, he2⟩ := articlesFn_error_of_mem h
  simp [mainRun, he2]

theorem mainRun_fails_of_page_error {bd : BlogData}
    {ai : List (Except String (Document × String))}
    {pi : List (String × Option Document)} {p : String}
    (h : (p, none) ∈ pi) : (mainRun bd ai pi).2.isSome = true := by
  cases ha : articlesFn ai with
  | error e => simp [mainRun, ha]
  | ok arts =>
    cases hi : index bd arts with
    | none => simp [mainRun, ha, hi]
    | some homeInner =>
      cases hl : article_list arts with
      | none => simp [mainRun, ha, hi, hl]
      | some listInner =>
        cases hloop : articlesLoop bd arts with
        | mk artFiles oe =>
          cases oe with
          | some e => simp [mainRun, ha, hi, hl, hloop]
          | none =>
            simp only [mainRun, ha, hi, hl, hloop]
            exact pagesLoop_fails h

theorem mainRun_success_complete {bd : BlogData}
    {ai : List (Except String (Document × String))}
    {pi : List (String × Option Document)}
    (h : (mainRun bd ai pi).2 = none) :
    ∃ arts, articlesFn ai = .ok arts ∧
      (∀ a, a ∈ arts → ∃ wf, wf ∈ (mainRun bd ai pi).1 ∧
        wf.path = articlePathSegs a) ∧
      (∀ pd, pd ∈ pi → (∃ doc, pd.2 = some doc) ∧
        ∃ wf, wf ∈ (mainRun bd ai pi).1 ∧
          wf.path = ["output", fileStem pd.1, "index.html"]) := by
  cases ha : articlesFn ai with
  | error e => simp [mainRun, ha] at h
  | ok arts =>
    cases hi : index bd arts with
    | none => simp [mainRun, ha, hi] at h
    | some homeInner =>
      cases hl : article_list arts with
      | none => simp [mainRun, ha, hi, hl] at h
      | some listInner =>
        cases hloop : articlesLoop bd arts with
        | mk artFiles oe =>
          cases oe with
          | some e => simp [mainRun, ha, hi, hl, hloop] at h
          | none =>
            simp only [mainRun, ha, hi, hl, hloop] at h ⊢
            refine ⟨arts, rfl, ?_, ?_⟩
            · intro a hmem
              obtain ⟨wf, hwf, hpath⟩ :=
                articlesLoop_complete (by rw [hloop]) a hmem
              rw [hloop] at hwf
              exact ⟨wf, by simp [List.mem_append, hwf], hpath⟩
            · intro pd hmem
              obtain ⟨hdoc, wf, hwf, hpath⟩ := pagesLoop_complete h pd hmem
              exact ⟨hdoc, wf, by simp [List.mem_append, hwf], hpath⟩


/-! ## Claim theorems -/

/-- C1, counterexample: the source routes an article under its CALENDAR year
paired with the ISO week number, not under the ISO week-based year the claim
asserts.  2024-12-30 belongs to ISO week 1 of ISO year 2025, yet its route
directory is output/2024/01, not output/2025/01. -/
theorem C1_route_calendar_year_cex :
    Date.isoYearWeek ⟨2024, 12, 30⟩ = (2025, 1) ∧
    (articlesFn [Except.ok (cexDocW53, "hello.px")]).toOption.map
        (List.map fun a => (a.path, a.date)) =
      some [("hello.px", ⟨2024, 12, 30⟩)] ∧
    articlePathSegs cexArtW53 = ["output", "2024", "01", "hello", "index.html"] ∧
    isoRouteSegs cexArtW53 = ["output", "2025", "01", "hello", "index.html"] ∧
    articlePathSegs cexArtW53 ≠ isoRouteSegs cexArtW53 :=
  ⟨rfl, rfl, rfl, rfl, by decide⟩

/-- C1, amended: for every Article with a valid date the output route is
output/Y/W/slug/index.html where Y is the zero-padded CALENDAR year of the
parsed date, W the zero-padded ISO week number (always between 1 and 53),
and slug the base name of the source file without its extension. -/
theorem C1_article_route (a : Article) (h : a.date.isValid = true) :
    articlePathSegs a =
      ["output", rustPad4S a.date.year, rustPad2S a.date.isoWeek,
       fileStem a.path, "index.html"] ∧
    1 ≤ a.date.isoWeek ∧ a.date.isoWeek ≤ 53 :=
  ⟨rfl, (isoWeek_bounds h).1, (isoWeek_bounds h).2⟩

/-- Witness for C1 at the article dated 2024-12-30. -/
theorem C1_article_route_witness :
    articlePathSegs cexArtW53 =
      ["output", rustPad4S cexArtW53.date.year, rustPad2S cexArtW53.date.isoWeek,
       fileStem cexArtW53.path, "index.html"] ∧
    1 ≤ cexArtW53.date.isoWeek ∧ cexArtW53.date.isoWeek ≤ 53 :=
  C1_article_route cexArtW53 (by decide)

/-- C2, counterexample: a non-draft document with a date present but
malformed is NOT silently excluded: the unwrap on Date::parse panics and the
whole articles stage fails. -/
theorem C2_malformed_date_panics_cex :
    cexDocBogus.metadata.draft = false ∧
    cexDocBogus.metadata.date = some "bogus" ∧
    parseDate "bogus" = none ∧
    articlesFn [Except.ok (cexDocBogus, "b.px")] = .error .panic :=
  ⟨rfl, rfl, rfl, rfl⟩

/-- C2, amended: on a successful run a document yields an article iff it is
not a draft AND its date is present AND the date parses under the fixed
format; drafts and undated documents are silently excluded, but a retained
document whose date string is malformed makes the run terminate abnormally
(panic) instead of being silently excluded. -/
theorem C2_retention (inputs : List (Except String (Document × String)))
    (docs : List (Document × String))
    (hc : collectExcept inputs = .ok docs) :
    (∀ arts, articlesFn inputs = .ok arts →
      ∀ dp, dp ∈ docs →
        ((∃ a, a ∈ arts ∧ a.document = dp.1 ∧ a.path = dp.2) ↔
          (dp.1.metadata.draft = false ∧
            ∃ s dt, dp.1.metadata.date = some s ∧ parseDate s = some dt))) ∧
    (∀ dp, dp ∈ docs → dp.1.metadata.draft = false →
      ∀ s, dp.1.metadata.date = some s → parseDate s = none →
        articlesFn inputs = .error .panic) := by
  constructor
  · intro arts ha dp hdp
    have hdpi : Except.ok dp ∈ inputs := by
      rw [collectExcept_eq_ok.mp hc]
      exact List.mem_map_of_mem Except.ok hdp
    exact mem_articles_iff ha hdpi
  · intro dp hdp hdraft s hdate hbad
    exact articlesFn_panic_of_malformed hc hdp hdraft hdate hbad

/-- Witness for C2 on a two-document corpus: one dated article, one draft. -/
theorem C2_retention_witness :
    (∀ arts,
      articlesFn [Except.ok (cexDocHello, "hello.px"),
        Except.ok (cexDocDraft, "d.px")] = .ok arts →
      ∀ dp, dp ∈ [(cexDocHello, "hello.px"), (cexDocDraft, "d.px")] →
        ((∃ a, a ∈ arts ∧ a.document = dp.1 ∧ a.path = dp.2) ↔
          (dp.1.metadata.draft = false ∧
            ∃ s dt, dp.1.metadata.date = some s ∧ parseDate s = some dt))) ∧
    (∀ dp, dp ∈ [(cexDocHello, "hello.px"), (cexDocDraft, "d.px")] →
      dp.1.metadata.draft = false →
      ∀ s, dp.1.metadata.date = some s → parseDate s = none →
        articlesFn [Except.ok (cexDocHello, "hello.px"),
          Except.ok (cexDocDraft, "d.px")] = .error .panic) :=
  C2_retention
    [Except.ok (cexDocHello, "hello.px"), Except.ok (cexDocDraft, "d.px")]
    [(cexDocHello, "hello.px"), (cexDocDraft, "d.px")] rfl

/-- C6: asset resolution is total; the Identity policy always returns the
assets-prefixed name, the FileBacked policy returns the manifest entry when
present and falls back to the Identity rule when absent. -/
theorem C6_asset_resolution :
    (∀ name, resolve .identity name = "/assets/" ++ name) ∧
    (∀ m name url, m.lookup name = some url →
      resolve (.fileBacked m) name = url) ∧
    (∀ m name, m.lookup name = none →
      resolve (.fileBacked m) name = "/assets/" ++ name) := by
  refine ⟨fun name => rfl, fun m name url h => ?_, fun m name h => ?_⟩
  · simp only [resolve, h]
  · simp only [resolve, h]

/-- Witness for C6 on a one-entry manifest. -/
theorem C6_asset_resolution_witness :
    resolve .identity "icons.svg" = "/assets/icons.svg" ∧
    resolve (.fileBacked [("icons.svg", "/hashed/icons.abc.svg")]) "icons.svg" =
      "/hashed/icons.abc.svg" ∧
    resolve (.fileBacked [("icons.svg", "/hashed/icons.abc.svg")]) "logo.png" =
      "/assets/logo.png" :=
  ⟨C6_asset_resolution.1 "icons.svg",
   C6_asset_resolution.2.1 [("icons.svg", "/hashed/icons.abc.svg")] "icons.svg"
     "/hashed/icons.abc.svg" rfl,
   C6_asset_resolution.2.2 [("icons.svg", "/hashed/icons.abc.svg")] "logo.png" rfl⟩

/-- C8: the link target of the preview of an article and the path its detail
page is written to are built from the same three components: the zero-padded
calendar year, the zero-padded ISO week and the file stem. -/
theorem C8_preview_link_matches_route (a : Article) (t : String)
    (h : a.document.metadata.title = some t) :
    ((article_preview a).bind previewLinkHref) =
      some ("/" ++ rustPad4S a.date.year ++ "/" ++ rustPad2S a.date.isoWeek
        ++ "/" ++ fileStem a.path ++ "/") ∧
    articlePathSegs a =
      ["output", rustPad4S a.date.year, rustPad2S a.date.isoWeek,
       fileStem a.path, "index.html"] := by
  constructor
  · simp only [article_preview, h, Option.some_bind]
    rfl
  · rfl

/-- Witness for C8 at the article dated 2024-03-15 (ISO week 11). -/
theorem C8_preview_link_matches_route_witness :
    ((article_preview cexArtHello).bind previewLinkHref) =
      some "/2024/11/hello/" ∧
    articlePathSegs cexArtHello =
      ["output", "2024", "11", "hello", "index.html"] :=
  C8_preview_link_matches_route cexArtHello "Hello" rfl


/-- C4, counterexample: a complete successful run whose article listing file
is written WITHOUT the document type declaration (the listing and the
standalone pages bypass the HtmlDocument wrapper), refuting the claim that
every output file is DOCTYPE-prefixed. -/
theorem C4_doctype_cex :
    (mainRun cexBD [] []).2 = none ∧
    ((mainRun cexBD [] []).1.map fun wf => doctypeC.isPrefixOf wf.content) =
      [true, false] := by
  constructor
  · rfl
  · have h1 : ((mainRun cexBD [] []).1.map fun wf =>
        doctypeC.isPrefixOf wf.content) =
        [doctypeC.isPrefixOf
          (htmlDocumentChars (layout cexBD ((index cexBD []).getD []))),
         doctypeC.isPrefixOf
          (renderL (layout cexBD ((article_list []).getD [])))] := rfl
    rw [h1, doctype_isPrefixOf_htmlDocument, doctype_not_isPrefixOf_layout]

/-- C4, amended: a written file starts with the document type declaration
iff it is the home page or the detail page of a retained article; the
article listing and the standalone pages are serialized without it. -/
theorem C4_doctype (bd : BlogData)
    (ai : List (Except String (Document × String)))
    (pi : List (String × Option Document)) (wf : WrittenFile)
    (h : wf ∈ (mainRun bd ai pi).1) :
    doctypeC.isPrefixOf wf.content = true ↔
      (wf.path = ["output", "index.html"] ∨
        ∃ arts a, articlesFn ai = .ok arts ∧ a ∈ arts ∧
          wf.path = articlePathSegs a) := by
  rcases mainRun_files_shape h with
    ⟨hp, f, hcf⟩ | ⟨hp, inner, hcf⟩ |
    ⟨arts, a, ha, hmem, hp, f, hcf⟩ | ⟨p, doc, hmem, hp, inner, hcf⟩
  · constructor
    · intro _
      exact Or.inl hp
    · intro _
      rw [hcf]
      exact doctype_isPrefixOf_htmlDocument (layout bd f)
  · constructor
    · intro hpre
      rw [hcf, doctype_not_isPrefixOf_layout] at hpre
      exact absurd hpre (by simp)
    · intro hor
      rcases hor with h1 | ⟨arts, a, ha, hmem, hpa⟩
      · rw [hp] at h1
        exact absurd (congrArg List.length h1) (by simp)
      · rw [hp] at hpa
        exact absurd (congrArg List.length hpa) (by simp [articlePathSegs])
  · constructor
    · intro _
      exact Or.inr ⟨arts, a, ha, hmem, hp⟩
    · intro _
      rw [hcf]
      exact doctype_isPrefixOf_htmlDocument (layout bd f)
  · constructor
    · intro hpre
      rw [hcf, doctype_not_isPrefixOf_layout] at hpre
      exact absurd hpre (by simp)
    · intro hor
      rcases hor with h1 | ⟨arts, a, ha, hmem, hpa⟩
      · rw [hp] at h1
        exact absurd (congrArg List.length h1) (by simp)
      · rw [hp] at hpa
        exact absurd (congrArg List.length hpa) (by simp [articlePathSegs])

/-- Witness for C4 at the home page of a concrete run. -/
theorem C4_doctype_witness :
    doctypeC.isPrefixOf
        ((mainRun cexBD [] []).1.get ⟨0, by decide⟩).content = true ↔
      (((mainRun cexBD [] []).1.get ⟨0, by decide⟩).path =
          ["output", "index.html"] ∨
        ∃ arts a, articlesFn [] = .ok arts ∧ a ∈ arts ∧
          ((mainRun cexBD [] []).1.get ⟨0, by decide⟩).path =
            articlePathSegs a) :=
  C4_doctype cexBD [] [] _ (List.get_mem _ _ _)

/-- C5: on a successful run, the previews rendered by both the home page and
the article listing are exactly the previews of the articles in reverse
order of the ascending-date-sorted sequence, and an article with a strictly
smaller date appears strictly later in that rendered sequence. -/
theorem C5_listings_reverse_chronological
    (inputs : List (Except String (Document × String)))
    (arts : List Article) (bd : BlogData) (ps : List Node)
    (h : articlesFn inputs = .ok arts)
    (hps : listingPreviews arts = some ps) :
    (∀ f, index bd arts = some f → collectPreviews f = ps) ∧
    (∀ g, article_list arts = some g → collectPreviews g = ps) ∧
    List.Forall₂ (fun a p => article_preview a = some p) arts.reverse ps ∧
    (∀ i j : Fin arts.reverse.length,
      dateLt (arts.reverse.get i).date (arts.reverse.get j).date →
        (j : Nat) < (i : Nat)) := by
  obtain ⟨docs, as, hin, ht, harts⟩ := articlesFn_ok_iff.mp h
  have hsorted : List.Sorted articleLe arts := by
    rw [harts]
    exact sortByDate_sorted as
  exact ⟨fun f hf => collectPreviews_index hps hf,
         fun g hg => collectPreviews_article_list hps hg,
         traverseOption_some_iff.mp hps,
         listing_reverse_chrono hsorted⟩

/-- Witness for C5 on a one-article corpus. -/
theorem C5_listings_reverse_chronological_witness :
    (∀ f, index cexBD [cexArtHello] = some f →
      collectPreviews f = (listingPreviews [cexArtHello]).getD []) ∧
    (∀ g, article_list [cexArtHello] = some g →
      collectPreviews g = (listingPreviews [cexArtHello]).getD []) ∧
    List.Forall₂ (fun a p => article_preview a = some p)
      [cexArtHello].reverse ((listingPreviews [cexArtHello]).getD []) ∧
    (∀ i j : Fin ([cexArtHello].reverse.length),
      dateLt (([cexArtHello].reverse.get i)).date
          (([cexArtHello].reverse.get j)).date →
        (j : Nat) < (i : Nat)) :=
  C5_listings_reverse_chronological
    [Except.ok (cexDocHello, "hello.px")] [cexArtHello] cexBD
    ((listingPreviews [cexArtHello]).getD []) rfl rfl

/-- C7, counterexample: a run in which the second standalone page fails
processing terminates abnormally, but only after the home page, the listing,
one article and the first standalone page were already written — the failed
build does NOT produce nothing new. -/
theorem C7_partial_output_cex :
    ("p2.px", (none : Option Document)) ∈
      [("p1.px", some cexPage), ("p2.px", (none : Option Document))] ∧
    (mainRun cexBD [Except.ok (cexDocHello, "hello.px")]
        [("p1.px", some cexPage), ("p2.px", none)]).2 = some .panic ∧
    ((mainRun cexBD [Except.ok (cexDocHello, "hello.px")]
        [("p1.px", some cexPage), ("p2.px", none)]).1.map WrittenFile.path) =
      [["output", "index.html"], ["output", "articles", "index.html"],
       ["output", "2024", "11", "hello", "index.html"],
       ["output", "p1", "index.html"]] :=
  ⟨List.mem_cons_of_mem _ (List.mem_cons_self _ _), rfl, rfl⟩

/-- C7, amended: a processing failure on any source file (article or
standalone page) makes the run terminate abnormally, and a successful run
writes a file for every retained article and every standalone page — no
document is silently skipped; however a failing run keeps the files it wrote
before the failure, it is not all-or-nothing. -/
theorem C7_failures_abort (bd : BlogData)
    (ai : List (Except String (Document × String)))
    (pi : List (String × Option Document)) :
    (∀ e, Except.error e ∈ ai → (mainRun bd ai pi).2.isSome = true) ∧
    (∀ p, (p, (none : Option Document)) ∈ pi →
      (mainRun bd ai pi).2.isSome = true) ∧
    ((mainRun bd ai pi).2 = none →
      ∃ arts, articlesFn ai = .ok arts ∧
        (∀ a, a ∈ arts → ∃ wf, wf ∈ (mainRun bd ai pi).1 ∧
          wf.path = articlePathSegs a) ∧
        (∀ pd, pd ∈ pi → (∃ doc, pd.2 = some doc) ∧
          ∃ wf, wf ∈ (mainRun bd ai pi).1 ∧
            wf.path = ["output", fileStem pd.1, "index.html"])) :=
  ⟨fun _ he => mainRun_fails_of_article_error he,
   fun _ hp => mainRun_fails_of_page_error hp,
   mainRun_success_complete⟩

/-- Witness for C7: a successful run writes the article page and the
standalone page. -/
theorem C7_failures_abort_witness :
    ∃ arts, articlesFn [Except.ok (cexDocHello, "hello.px")] = .ok arts ∧
      (∀ a, a ∈ arts →
        ∃ wf, wf ∈ (mainRun cexBD [Except.ok (cexDocHello, "hello.px")]
            [("me.px", some cexPage)]).1 ∧
          wf.path = articlePathSegs a) ∧
      (∀ pd, pd ∈ [("me.px", some cexPage)] → (∃ doc, pd.2 = some doc) ∧
        ∃ wf, wf ∈ (mainRun cexBD [Except.ok (cexDocHello, "hello.px")]
            [("me.px", some cexPage)]).1 ∧
          wf.path = ["output", fileStem pd.1, "index.html"]) :=
  (C7_failures_abort cexBD [Except.ok (cexDocHello, "hello.px")]
    [("me.px", some cexPage)]).2.2 rfl

/-- C9, counterexample: a standalone page source file named with two leading
dots has the file stem two dots; its output path climbs out of the output
tree and the written file output/../index.html lies outside it. -/
theorem C9_escape_cex :
    fileStem "...px" = ".." ∧
    ((mainRun cexBD [] [("...px", some cexPage)]).1.map WrittenFile.path) =
      [["output", "index.html"], ["output", "articles", "index.html"],
       ["output", "..", "index.html"]] ∧
    (mainRun cexBD [] [("...px", some cexPage)]).2 = none ∧
    ((mainRun cexBD [] [("...px", some cexPage)]).1.all fun wf =>
      withinOutput wf.path) = false :=
  ⟨rfl, rfl, rfl, rfl⟩

/-- C9, amended: provided no standalone page source has the file stem
dot-dot, every file the run writes lies within the output tree (a single-dot
stem merely resolves to output itself); article routes stay within it
unconditionally (their two middle components are zero-padded numbers and a
trailing dot-dot stem cannot climb past them). -/
theorem C9_output_confinement (bd : BlogData)
    (ai : List (Except String (Document × String)))
    (pi : List (String × Option Document))
    (hpages : ∀ pd, pd ∈ pi → fileStem pd.1 ≠ "..") :
    ∀ wf, wf ∈ (mainRun bd ai pi).1 → withinOutput wf.path = true := by
  intro wf hwf
  rcases mainRun_files_shape hwf with
    ⟨hp, _⟩ | ⟨hp, _⟩ | ⟨arts, a, ha, hmem, hp, _⟩ | ⟨p, doc, hmem, hp, _⟩
  · rw [hp]
    rfl
  · rw [hp]
    rfl
  · rw [hp]
    exact withinOutput_article (rustPad4S_ne_dots _).1 (rustPad4S_ne_dots _).2
      (rustPad2S_ne_dots _).1 (rustPad2S_ne_dots _).2 _
  · rw [hp]
    exact withinOutput_page (hpages (p, some doc) hmem)

/-- Witness for C9 on a concrete run with a normal page stem. -/
theorem C9_output_confinement_witness :
    ((mainRun cexBD [Except.ok (cexDocHello, "hello.px")]
        [("me.px", some cexPage)]).1.all fun wf =>
      withinOutput wf.path) = true := by
  rw [List.all_eq_true]
  intro wf hwf
  refine C9_output_confinement cexBD [Except.ok (cexDocHello, "hello.px")]
    [("me.px", some cexPage)] ?_ wf hwf
  intro pd hpd
  have hpd2 : pd = ("me.px", some cexPage) := by
    simpa using hpd
  subst hpd2
  decide

/-- C10, counterexample: the date string with a redundant leading plus sign
parses (so the document is retained), but the date text rendered for it is
the sign-free form, not the author string character for character. -/
theorem C10_roundtrip_cex :
    cexDocPlus.metadata.draft = false ∧
    cexDocPlus.metadata.date = some "+2024-01-01" ∧
    (articlesFn [Except.ok (cexDocPlus, "t.px")]).toOption.map
        (List.map fun a => a.date.formatS) = some ["2024-01-01"] ∧
    "2024-01-01" ≠ "+2024-01-01" :=
  ⟨rfl, rfl, rfl, by decide⟩

/-- C10, amended: for every retained article whose date string carries no
redundant sign (no leading plus, and no minus in front of a zero year),
formatting the parsed date reproduces the author string character for
character, and that string is exactly the date text of the rendered
preview. -/
theorem C10_date_roundtrip
    (inputs : List (Except String (Document × String)))
    (arts : List Article) (a : Article) (s : String)
    (h : articlesFn inputs = .ok arts) (ha : a ∈ arts)
    (hdate : a.document.metadata.date = some s)
    (hplus : s.data.head? ≠ some '+')
    (hneg : s.data.head? = some '-' → a.date.year ≠ 0) :
    a.date.formatS = s ∧
    (∀ t nd, a.document.metadata.title = some t →
      article_preview a = some nd → previewDateText nd = some s) := by
  obtain ⟨docs, as, hin, ht, harts⟩ := articlesFn_ok_iff.mp h
  have ha2 : a ∈ as := by
    rw [harts] at ha
    exact (sortByDate_perm as).mem_iff.mp ha
  obtain ⟨dp, hdp, hmk⟩ := forall₂_mem_right (traverseOption_some_iff.mp ht) ha2
  obtain ⟨s2, dt, hdate2, hparse, hae⟩ := mkArticle_eq_some.mp hmk
  have hs2 : s2 = s := by
    rw [hae] at hdate
    simp only at hdate
    rw [hdate2] at hdate
    exact Option.some.inj hdate
  have hparse2 : parseDate s = some dt := hs2 ▸ hparse
  have hadate : a.date = dt := by
    rw [hae]
  have hfmt : a.date.formatS = s := by
    rw [hadate, Date.formatS,
      @format_of_parse s.data dt hparse2 hplus
        (fun hm => by rw [← hadate]; exact hneg hm)]
  refine ⟨hfmt, ?_⟩
  intro t nd htitle hnd
  simp only [article_preview, htitle, Option.some.injEq] at hnd
  rw [← hnd]
  simp only [previewDateText, hfmt]

/-- Witness for C10 at the article dated 2024-03-15. -/
theorem C10_date_roundtrip_witness :
    cexArtHello.date.formatS = "2024-03-15" ∧
    (∀ t nd, cexArtHello.document.metadata.title = some t →
      article_preview cexArtHello = some nd →
      previewDateText nd = some "2024-03-15") :=
  C10_date_roundtrip [Except.ok (cexDocHello, "hello.px")] [cexArtHello]
    cexArtHello "2024-03-15" rfl (List.mem_cons_self _ _) rfl
    (by decide) (by decide)


end Blogen
